import Mathlib

/-!
Shallow embedding of the `git_rev` crate (src/lib.rs) and verification of its
specification.  Byte strings are modelled as `List Nat` whose elements are
below 256; machine integers are `Nat` (no `u64` overflow can occur: the ored
value of eight bytes shifted by at most 56 bits is below `2 ^ 64`).
-/

namespace GitRev

/-- `HASH_BYTES` from src/lib.rs: number of bytes of a complete git commit hash. -/
def HASH_BYTES : Nat := 20

/-- `Hash::most_significant_u64` from src/lib.rs lines 17-28: the eight leading
bytes ored together after shifts of 56, 48, ..., 0 bits.  Array indexing
`self.0[i]` at constant index on a `[u8; 20]` is modelled by `List.getD`. -/
def most_significant_u64 (h : List Nat) : Nat :=
  (h.getD 0 0) <<< 56
    ||| (h.getD 1 0) <<< 48
    ||| (h.getD 2 0) <<< 40
    ||| (h.getD 3 0) <<< 32
    ||| (h.getD 4 0) <<< 24
    ||| (h.getD 5 0) <<< 16
    ||| (h.getD 6 0) <<< 8
    ||| (h.getD 7 0)

/-- The lowercase hex digit character for a value below 16, as produced by the
`{:02x}` format used in `impl Display for Hash`. -/
def hexDigitChar (n : Nat) : Char :=
  if n < 10 then Char.ofNat (48 + n) else Char.ofNat (87 + n)

/-- One byte rendered by `write!(f, "{:02x}", *byte)`: two lowercase hex
characters, high nibble first (a `u8` is below 256, hence never wider). -/
def byteToHex (b : Nat) : List Char :=
  [hexDigitChar (b / 16), hexDigitChar (b % 16)]

/-- `impl std::fmt::Display for Hash` (src/lib.rs lines 46-54): every byte is
written as `{:02x}` in order. -/
def toHexString (h : List Nat) : List Char :=
  (h.map byteToHex).flatten

/-- Value of a hex character (`0-9`, `a-f`, `A-F`), used for the pairwise
decoding in the round-trip law. -/
def hexCharVal (c : Char) : Option Nat :=
  if '0' ≤ c ∧ c ≤ '9' then some (c.toNat - 48)
  else if 'a' ≤ c ∧ c ≤ 'f' then some (c.toNat - 87)
  else if 'A' ≤ c ∧ c ≤ 'F' then some (c.toNat - 55)
  else none

/-- Strict pairwise hex decoding of a character string: every two characters
become one radix-16 byte; an odd tail or a non-hex character fails. -/
def decodeHexChars : List Char → Option (List Nat)
  | [] => some []
  | a :: b :: rest =>
    match hexCharVal a, hexCharVal b, decodeHexChars rest with
    | some hi, some lo, some bs => some ((hi * 16 + lo) :: bs)
    | _, _, _ => none
  | [_] => none

/-- A character in `[0-9a-f]` (lowercase hex). -/
def isLowerHexChar (c : Char) : Bool :=
  ('0' ≤ c && c ≤ '9') || ('a' ≤ c && c ≤ 'f')

/-- Ranges, low and high bound inclusive, that the continuation bytes after a
given first byte must lie in, or `none` for an invalid first byte.  This is
the table driving `core::str::from_utf8` validation: overlong encodings and
surrogates are excluded through the narrowed second-byte ranges of `0xE0`,
`0xED`, `0xF0` and `0xF4`. -/
def utf8Expect (b : Nat) : Option (List (Nat × Nat)) :=
  if b < 128 then some []
  else if 194 ≤ b ∧ b ≤ 223 then some [(128, 191)]
  else if b = 224 then some [(160, 191), (128, 191)]
  else if 225 ≤ b ∧ b ≤ 236 then some [(128, 191), (128, 191)]
  else if b = 237 then some [(128, 159), (128, 191)]
  else if 238 ≤ b ∧ b ≤ 239 then some [(128, 191), (128, 191)]
  else if b = 240 then some [(144, 191), (128, 191), (128, 191)]
  else if 241 ≤ b ∧ b ≤ 243 then some [(128, 191), (128, 191), (128, 191)]
  else if b = 244 then some [(128, 143), (128, 191), (128, 191)]
  else none

/-- One step of UTF-8 validation: `exp` lists the bounds the next bytes of a
partially read multi-byte sequence must satisfy. -/
def utf8Run : List (Nat × Nat) → List Nat → Bool
  | [], [] => true
  | _ :: _, [] => false
  | [], b :: rest =>
    match utf8Expect b with
    | none => false
    | some exp => utf8Run exp rest
  | (lo, hi) :: exp, b :: rest =>
    if lo ≤ b ∧ b ≤ hi then utf8Run exp rest else false

/-- UTF-8 validity of a byte sequence, as checked by `String::from_utf8`. -/
def isValidUtf8 (s : List Nat) : Bool := utf8Run [] s

/-- `char::to_digit(16)` on a byte value: decimal digits and hex letters of
either case. -/
def to_digit16 (b : Nat) : Option Nat :=
  if 48 ≤ b ∧ b ≤ 57 then some (b - 48)
  else if 97 ≤ b ∧ b ≤ 102 then some (b - 87)
  else if 65 ≤ b ∧ b ≤ 70 then some (b - 55)
  else none

/-- The digit-accumulation loop of `from_str_radix` for `u8`, radix 16:
`checked_mul`/`checked_add` against the `u8` range. -/
def radixAccum (acc : Nat) : List Nat → Option Nat
  | [] => some acc
  | c :: rest =>
    match to_digit16 c with
    | none => none
    | some d => if acc * 16 + d ≤ 255 then radixAccum (acc * 16 + d) rest else none

/-- `u8::from_str_radix(s, 16)` on the bytes of the slice: an optional leading
`+` is accepted (a lone sign or a leading `-` on an unsigned type is an
error), then digits are accumulated. -/
def from_str_radix_u8 (s : List Nat) : Option Nat :=
  match s with
  | [] => none
  | c :: rest =>
    if c = 43 then (if rest = [] then none else radixAccum 0 rest)
    else if c = 45 then none
    else radixAccum 0 s

/-- `str::is_char_boundary`: index 0 is a boundary, the end of the string is a
boundary, and otherwise the byte at the index must not be a continuation
byte (`(b as i8) >= -0x40`, i.e. `b < 0x80 ∨ 0xC0 ≤ b`). -/
def is_char_boundary (s : List Nat) (i : Nat) : Bool :=
  if i = 0 then true
  else
    match s[i]? with
    | none => i == s.length
    | some b => b < 128 || 192 ≤ b

/-- String slicing `&s[a..b]`: `none` models the panic taken when the range is
out of order, past the end, or not on character boundaries. -/
def sliceStr (s : List Nat) (a b : Nat) : Option (List Nat) :=
  if a ≤ b && b ≤ s.length && is_char_boundary s a && is_char_boundary s b
  then some ((s.drop a).take (b - a))
  else none

/-- The three variants of `enum Error` (src/lib.rs lines 153-161). -/
inductive Error
  | Command
  | StatusCode
  | Parse
deriving DecidableEq

/-- Outcome of `get_git_revision`: a hash, an `Error`, or a panic (the slice
`&stdout[i * 2..i * 2 + 2]` can abort the process). -/
inductive GitResult
  | ok (h : List Nat)
  | err (e : Error)
  | panicked
deriving DecidableEq

/-- The `for i in 0..HASH_BYTES` loop of `get_git_revision` (src/lib.rs lines
142-146): `n` iterations remain, `i` is the loop index, and `acc` holds the
bytes already stored into `hash_bytes[0..i]` (the array is filled in index
order, so the in-place writes are modelled by appending). -/
def parse_hash_loop (stdout : List Nat) : Nat → Nat → List Nat → GitResult
  | 0, _, acc => .ok acc
  | n + 1, i, acc =>
    match sliceStr stdout (i * 2) (i * 2 + 2) with
    | none => .panicked
    | some two_digits =>
      match from_str_radix_u8 two_digits with
      | none => .err .Parse
      | some byte => parse_hash_loop stdout n (i + 1) (acc ++ [byte])

/-- Captured result of a successfully spawned command: exit-status success
flag and raw stdout bytes. -/
structure Output where
  success : Bool
  stdout : List Nat
deriving DecidableEq

/-- `get_git_revision` (src/lib.rs lines 127-151), parameterised by the result
of running `git rev-parse HEAD`: `none` when the command could not be
launched, otherwise its `Output`. -/
def get_git_revision (spawn : Option Output) : GitResult :=
  match spawn with
  | none => .err .Command
  | some output =>
    if output.success then
      let stdout := output.stdout
      if stdout.length < HASH_BYTES * 2 then .err .Parse
      else
        let stdout := stdout.take (HASH_BYTES * 2)
        if isValidUtf8 stdout then
          parse_hash_loop stdout HASH_BYTES 0 []
        else .err .Parse
    else .err .StatusCode

/-- Modelled from the spec (design note in section 9) for comparison with the
source: stdout is truncated to exactly 40 characters *before* the length is
validated. -/
def get_git_revision_truncate_first (spawn : Option Output) : GitResult :=
  match spawn with
  | none => .err .Command
  | some output =>
    if output.success then
      let stdout := output.stdout.take (HASH_BYTES * 2)
      if stdout.length < HASH_BYTES * 2 then .err .Parse
      else if isValidUtf8 stdout then
        parse_hash_loop stdout HASH_BYTES 0 []
      else .err .Parse
    else .err .StatusCode

/-- A byte that is an ASCII hexadecimal digit (`0-9`, `a-f`, `A-F`). -/
def isHexDigitByte (b : Nat) : Bool := (to_digit16 b).isSome

/-- An aligned two-character pair that `u8::from_str_radix(_, 16)` accepts:
two hex digits, or a `+` sign followed by one hex digit. -/
def pairOk (a b : Nat) : Bool :=
  (isHexDigitByte a && isHexDigitByte b) || (a == 43 && isHexDigitByte b)

/-- Pairwise decoding of a byte string of hex characters (total; digits read
through `to_digit16`, defaulting to 0 off the hex range). -/
def decodePairsBytes : List Nat → List Nat
  | a :: b :: rest =>
    ((to_digit16 a).getD 0 * 16 + (to_digit16 b).getD 0) :: decodePairsBytes rest
  | _ => []

/-- The first eight bytes of a hash read as a big-endian integer. -/
def beBytes (l : List Nat) : Nat := l.foldl (fun a b => 256 * a + b) 0

/-- Sequential view of the parse loop: the remaining suffix of the truncated
stdout is carried directly instead of an index into it. -/
def pairsLoop : Nat → List Nat → List Nat → GitResult
  | 0, _, acc => .ok acc
  | n + 1, rem, acc =>
    match from_str_radix_u8 (rem.take 2) with
    | none => .err .Parse
    | some byte => pairsLoop n (rem.drop 2) (acc ++ [byte])

section Helpers

theorem lor_disjoint (k A c : Nat) (hc : c < 2 ^ k) :
    (A * 2 ^ k) ||| c = A * 2 ^ k + c := by
  induction k generalizing A c with
  | zero =>
    have : c = 0 := by omega
    subst this
    simp
  | succ k ih =>
    have h2 : (2 : Nat) ^ (k + 1) = 2 * 2 ^ k := by rw [pow_succ]; ring
    have hc2 : c / 2 < 2 ^ k := by rw [h2] at hc; omega
    have hbit : Nat.bit (decide (c % 2 = 1)) (c / 2) = c := by
      rw [Nat.bit_val]
      rcases Nat.mod_two_eq_zero_or_one c with h | h <;> simp [h] <;> omega
    have hA : Nat.bit false (A * 2 ^ k) = A * 2 ^ (k + 1) := by
      rw [Nat.bit_val, h2]; simp; ring
    calc (A * 2 ^ (k + 1)) ||| c
        = Nat.bit false (A * 2 ^ k) ||| Nat.bit (decide (c % 2 = 1)) (c / 2) := by
          rw [hA, hbit]
      _ = Nat.bit (false || decide (c % 2 = 1)) ((A * 2 ^ k) ||| (c / 2)) :=
          Nat.lor_bit ..
      _ = Nat.bit (decide (c % 2 = 1)) (A * 2 ^ k + c / 2) := by
          rw [Bool.false_or, ih _ _ hc2]
      _ = A * 2 ^ (k + 1) + c := by
          rw [Nat.bit_val, h2]
          have hr : A * (2 * 2 ^ k) = 2 * (A * 2 ^ k) := by ring
          rw [hr]
          rcases Nat.mod_two_eq_zero_or_one c with h | h <;> simp [h] <;> omega

theorem byte_mul_pow_lt (b j k : Nat) (hb : b < 256) (he : j + 8 = k) :
    b * 2 ^ j < 2 ^ k := by
  subst he
  have h2 : (2 : Nat) ^ (j + 8) = 2 ^ j * 256 := by rw [pow_add]; norm_num
  rw [h2]
  calc b * 2 ^ j ≤ 255 * 2 ^ j := Nat.mul_le_mul_right _ (by omega)
    _ < 2 ^ j * 256 := by have := Nat.pos_pow_of_pos j (show 0 < 2 by omega); nlinarith

theorem lor_bytes (b0 b1 b2 b3 b4 b5 b6 b7 : Nat)
    (_h0 : b0 < 256) (h1 : b1 < 256) (h2 : b2 < 256) (h3 : b3 < 256)
    (h4 : b4 < 256) (h5 : b5 < 256) (h6 : b6 < 256) (h7 : b7 < 256) :
    b0 <<< 56 ||| b1 <<< 48 ||| b2 <<< 40 ||| b3 <<< 32 ||| b4 <<< 24
      ||| b5 <<< 16 ||| b6 <<< 8 ||| b7
    = ((((((b0 * 256 + b1) * 256 + b2) * 256 + b3) * 256 + b4) * 256 + b5)
        * 256 + b6) * 256 + b7 := by
  simp only [Nat.shiftLeft_eq]
  rw [lor_disjoint 56 b0 _ (byte_mul_pow_lt b1 48 56 h1 (by norm_num))]
  have f1 : b0 * 2 ^ 56 + b1 * 2 ^ 48 = (b0 * 256 + b1) * 2 ^ 48 := by ring
  rw [f1, lor_disjoint 48 _ _ (byte_mul_pow_lt b2 40 48 h2 (by norm_num))]
  have f2 : (b0 * 256 + b1) * 2 ^ 48 + b2 * 2 ^ 40
      = ((b0 * 256 + b1) * 256 + b2) * 2 ^ 40 := by ring
  rw [f2, lor_disjoint 40 _ _ (byte_mul_pow_lt b3 32 40 h3 (by norm_num))]
  have f3 : ((b0 * 256 + b1) * 256 + b2) * 2 ^ 40 + b3 * 2 ^ 32
      = (((b0 * 256 + b1) * 256 + b2) * 256 + b3) * 2 ^ 32 := by ring
  rw [f3, lor_disjoint 32 _ _ (byte_mul_pow_lt b4 24 32 h4 (by norm_num))]
  have f4 : (((b0 * 256 + b1) * 256 + b2) * 256 + b3) * 2 ^ 32 + b4 * 2 ^ 24
      = ((((b0 * 256 + b1) * 256 + b2) * 256 + b3) * 256 + b4) * 2 ^ 24 := by ring
  rw [f4, lor_disjoint 24 _ _ (byte_mul_pow_lt b5 16 24 h5 (by norm_num))]
  have f5 : ((((b0 * 256 + b1) * 256 + b2) * 256 + b3) * 256 + b4) * 2 ^ 24
        + b5 * 2 ^ 16
      = (((((b0 * 256 + b1) * 256 + b2) * 256 + b3) * 256 + b4) * 256 + b5)
        * 2 ^ 16 := by ring
  rw [f5, lor_disjoint 16 _ _ (byte_mul_pow_lt b6 8 16 h6 (by norm_num))]
  have f6 : (((((b0 * 256 + b1) * 256 + b2) * 256 + b3) * 256 + b4) * 256 + b5)
        * 2 ^ 16 + b6 * 2 ^ 8
      = ((((((b0 * 256 + b1) * 256 + b2) * 256 + b3) * 256 + b4) * 256 + b5)
        * 256 + b6) * 2 ^ 8 := by ring
  rw [f6, lor_disjoint 8 _ _ (show b7 < 2 ^ 8 by norm_num; omega)]
  ring

theorem getD_take_eight (l : List Nat) (i : Nat) (hi : i < 8) :
    (l.take 8).getD i 0 = l.getD i 0 := by
  simp [List.getD_eq_getElem?_getD, List.getElem?_take, hi]

theorem ascii_isValidUtf8 (s : List Nat) (h : ∀ b ∈ s, b < 128) :
    isValidUtf8 s = true := by
  induction s with
  | nil => rfl
  | cons b rest ih =>
    have hb : b < 128 := h b (by simp)
    have he : utf8Expect b = some [] := by
      unfold utf8Expect
      rw [if_pos hb]
    show utf8Run [] (b :: rest) = true
    simp only [utf8Run, he]
    exact ih fun x hx => h x (by simp [hx])

theorem to_digit16_le15 {b d : Nat} (h : to_digit16 b = some d) : d ≤ 15 := by
  unfold to_digit16 at h
  split_ifs at h <;> simp_all <;> omega

theorem isHex_lt128 {b : Nat} (h : isHexDigitByte b = true) : b < 128 := by
  unfold isHexDigitByte to_digit16 at h
  split_ifs at h <;> simp_all <;> omega

theorem boundary_of_ascii (s : List Nat) (hA : ∀ b ∈ s, b < 128) (i : Nat)
    (hi : i ≤ s.length) : is_char_boundary s i = true := by
  unfold is_char_boundary
  split_ifs with h0
  · rfl
  · cases hget : s[i]? with
    | none =>
      have : s.length ≤ i := by
        rw [List.getElem?_eq_none_iff] at hget
        exact hget
      simp only [hget]
      simp [show i = s.length by omega]
    | some b =>
      have hmem : b ∈ s := List.getElem?_mem hget
      simp only [hget]
      simp [hA b hmem]

theorem from_str_pair_isSome (a b : Nat) :
    (from_str_radix_u8 [a, b]).isSome = pairOk a b := by
  by_cases ha43 : a = 43
  · subst ha43
    simp only [from_str_radix_u8, pairOk, if_pos rfl]
    have h43 : isHexDigitByte 43 = false := by decide
    cases hdb : to_digit16 b with
    | none => simp [radixAccum, hdb, isHexDigitByte, h43]
    | some db =>
      have hle : db ≤ 15 := to_digit16_le15 hdb
      simp [radixAccum, hdb, isHexDigitByte, h43, show db ≤ 255 by omega]
  · by_cases ha45 : a = 45
    · subst ha45
      have h45 : isHexDigitByte 45 = false := by decide
      simp [from_str_radix_u8, pairOk, h45, ha43]
    · simp only [from_str_radix_u8, if_neg ha43, if_neg ha45]
      cases hda : to_digit16 a with
      | none =>
        have hhexa : isHexDigitByte a = false := by
          simp [isHexDigitByte, hda]
        simp [radixAccum, hda, pairOk, hhexa, ha43]
      | some da =>
        have hda15 : da ≤ 15 := to_digit16_le15 hda
        have hhexa : isHexDigitByte a = true := by simp [isHexDigitByte, hda]
        cases hdb : to_digit16 b with
        | none =>
          have hhexb : isHexDigitByte b = false := by simp [isHexDigitByte, hdb]
          simp [radixAccum, hda, hdb, pairOk, hhexa, hhexb,
            show 0 * 16 + da ≤ 255 by omega]
        | some db =>
          have hdb15 : db ≤ 15 := to_digit16_le15 hdb
          have hhexb : isHexDigitByte b = true := by simp [isHexDigitByte, hdb]
          simp [radixAccum, hda, hdb, pairOk, hhexa, hhexb,
            show da ≤ 255 by omega, show da * 16 + db ≤ 255 by omega]

theorem from_str_pair_none {a b : Nat} (h : pairOk a b = false) :
    from_str_radix_u8 [a, b] = none := by
  have hs := from_str_pair_isSome a b
  rw [h] at hs
  cases hfs : from_str_radix_u8 [a, b] with
  | none => rfl
  | some v => rw [hfs] at hs; simp at hs

theorem from_str_two_hex {a b da db : Nat} (ha : to_digit16 a = some da)
    (hb : to_digit16 b = some db) :
    from_str_radix_u8 [a, b] = some (da * 16 + db) := by
  have ha43 : a ≠ 43 := by
    intro h; subst h
    rw [show to_digit16 43 = none by decide] at ha; cases ha
  have ha45 : a ≠ 45 := by
    intro h; subst h
    rw [show to_digit16 45 = none by decide] at ha; cases ha
  have hda15 : da ≤ 15 := to_digit16_le15 ha
  have hdb15 : db ≤ 15 := to_digit16_le15 hb
  simp [from_str_radix_u8, if_neg ha43, if_neg ha45, radixAccum, ha, hb]
  omega

theorem parse_loop_eq_pairs (stdout : List Nat) (hA : ∀ b ∈ stdout, b < 128) :
    ∀ (n i : Nat) (acc : List Nat), i * 2 + n * 2 ≤ stdout.length →
      parse_hash_loop stdout n i acc = pairsLoop n (stdout.drop (i * 2)) acc := by
  intro n
  induction n with
  | zero => intro i acc _; rfl
  | succ n ih =>
    intro i acc hlen
    have hb1 : is_char_boundary stdout (i * 2) = true :=
      boundary_of_ascii _ hA _ (by omega)
    have hb2 : is_char_boundary stdout (i * 2 + 2) = true :=
      boundary_of_ascii _ hA _ (by omega)
    have hslice : sliceStr stdout (i * 2) (i * 2 + 2)
        = some ((stdout.drop (i * 2)).take 2) := by
      unfold sliceStr
      rw [if_pos]
      · norm_num
      · simp [hb1, hb2]
        omega
    simp only [parse_hash_loop, pairsLoop, hslice]
    cases hfs : from_str_radix_u8 ((stdout.drop (i * 2)).take 2) with
    | none => rfl
    | some byte =>
      dsimp only
      rw [ih (i + 1) (acc ++ [byte]) (by omega), List.drop_drop]
      have e : i * 2 + 2 = (i + 1) * 2 := by ring
      rw [e]

theorem pairsLoop_ne_panicked : ∀ (n : Nat) (rem acc : List Nat),
    pairsLoop n rem acc ≠ .panicked := by
  intro n
  induction n with
  | zero => intro rem acc h; exact GitResult.noConfusion h
  | succ n ih =>
    intro rem acc
    simp only [pairsLoop]
    split
    · simp
    · exact ih _ _

theorem pairsLoop_ok : ∀ (n : Nat) (s acc : List Nat), s.length = 2 * n →
    (∀ b ∈ s, isHexDigitByte b = true) →
    pairsLoop n s acc = .ok (acc ++ decodePairsBytes s) := by
  intro n
  induction n with
  | zero =>
    intro s acc hlen _
    have : s = [] := List.eq_nil_of_length_eq_zero (by omega)
    subst this
    simp [pairsLoop, decodePairsBytes]
  | succ n ih =>
    intro s acc hlen hhex
    rcases s with _ | ⟨a, _ | ⟨b, t⟩⟩
    · simp at hlen
    · simp at hlen; omega
    · obtain ⟨da, hda⟩ := Option.isSome_iff_exists.mp
        (by simpa [isHexDigitByte] using hhex a (by simp))
      obtain ⟨db, hdb⟩ := Option.isSome_iff_exists.mp
        (by simpa [isHexDigitByte] using hhex b (by simp))
      simp only [pairsLoop, List.take, List.drop]
      rw [from_str_two_hex hda hdb]
      dsimp only
      rw [ih t (acc ++ [da * 16 + db])
        (by simp only [List.length_cons] at hlen; omega)
        (fun x hx => hhex x (by simp [hx]))]
      simp [decodePairsBytes, hda, hdb]

theorem pairsLoop_err : ∀ (n : Nat) (s acc : List Nat) (j : Nat), j < n →
    from_str_radix_u8 ((s.drop (2 * j)).take 2) = none →
    pairsLoop n s acc = .err .Parse := by
  intro n
  induction n with
  | zero => intro s acc j hj _; omega
  | succ n ih =>
    intro s acc j hj hnone
    simp only [pairsLoop]
    split
    · rfl
    · next byte hfs =>
      rcases j with _ | j
      · rw [Nat.mul_zero, List.drop_zero] at hnone
        rw [hnone] at hfs; cases hfs
      · refine ih _ _ j (by omega) ?_
        rw [List.drop_drop]
        have e : 2 + 2 * j = 2 * (j + 1) := by ring
        rw [e]
        exact hnone

theorem get_true_eq (stdout : List Nat) :
    get_git_revision (some ⟨true, stdout⟩)
    = if stdout.length < 40 then .err .Parse
      else if isValidUtf8 (stdout.take 40) = true then
        parse_hash_loop (stdout.take 40) 20 0 []
      else .err .Parse := by
  simp only [get_git_revision, HASH_BYTES]
  norm_num

theorem drop_take_two (s : List Nat) (k : Nat) (hk : k + 1 < s.length) :
    (s.drop k).take 2 = [s.getD k 0, s.getD (k + 1) 0] := by
  rw [List.drop_eq_getElem_cons (show k < s.length by omega),
    List.drop_eq_getElem_cons (show k + 1 < s.length from hk)]
  rw [List.getD_eq_getElem s 0 (show k < s.length by omega),
    List.getD_eq_getElem s 0 (show k + 1 < s.length from hk)]
  rfl

end Helpers

/-- C6: for every command output shorter than 40 bytes, with success exit
status, resolution fails with `ParseFailure` (`Error::Parse`). -/
theorem C6_short_output_parse_failure (stdout : List Nat)
    (h : stdout.length < 40) :
    get_git_revision (some ⟨true, stdout⟩) = .err .Parse := by
  rw [get_true_eq, if_pos h]

/-- Witness for C6 at the empty output. -/
theorem C6_short_output_parse_failure_witness :
    ([] : List Nat).length < 40 ∧
    get_git_revision (some ⟨true, []⟩) = .err .Parse :=
  ⟨by decide, C6_short_output_parse_failure [] (by decide)⟩

/-- C7: for every command invocation that launches but returns a non-success
exit status, resolution fails with `NonZeroExit` (`Error::StatusCode`),
whatever stdout holds: stdout is never inspected. -/
theorem C7_nonzero_exit_status (stdout : List Nat) :
    get_git_revision (some ⟨false, stdout⟩) = .err .StatusCode := rfl

/-- C8: a command that cannot be launched yields `CommandFailed`
(`Error::Command`), and output that is not valid UTF-8 within its first 40
bytes yields `ParseFailure` (`Error::Parse`). -/
theorem C8_command_failed_and_encoding :
    get_git_revision none = .err .Command ∧
    ∀ stdout : List Nat, isValidUtf8 (stdout.take 40) = false →
      get_git_revision (some ⟨true, stdout⟩) = .err .Parse := by
  refine ⟨rfl, fun stdout hutf => ?_⟩
  rw [get_true_eq]
  split_ifs with h1 h2
  · rfl
  · rw [hutf] at h2; cases h2
  · rfl

/-- Witness for C8 at an output of 40 continuation bytes (invalid UTF-8). -/
theorem C8_command_failed_and_encoding_witness :
    isValidUtf8 ((List.replicate 40 255).take 40) = false ∧
    get_git_revision (some ⟨true, List.replicate 40 255⟩) = .err .Parse :=
  ⟨by decide, C8_command_failed_and_encoding.2 (List.replicate 40 255) (by decide)⟩

/-- C2 counterexample: the output starting with the pair `+1` (then 38 zeros
and a newline) has a non-hex character among its first 40, the exit status is
success, yet resolution succeeds with byte `0x01` — `u8::from_str_radix`
accepts a leading plus sign, so the claimed `ParseFailure` does not occur. -/
theorem C2_plus_sign_counterexample :
    (43 ∈ (43 :: 49 :: (List.replicate 38 48 ++ [10]) : List Nat).take 40) ∧
    isHexDigitByte 43 = false ∧
    get_git_revision (some ⟨true, 43 :: 49 :: (List.replicate 38 48 ++ [10])⟩)
      = .ok (1 :: List.replicate 19 0) := by
  refine ⟨by decide, by decide, by decide⟩

/-- C2 (amended): for every command output with success exit status whose
first 40 bytes are ASCII, if some aligned two-character pair among them is
neither two hex digits nor a plus sign followed by a hex digit (the forms
`u8::from_str_radix` accepts), resolution fails with `ParseFailure`. -/
theorem C2_nonhex_pair_parse_failure (stdout : List Nat)
    (hascii : ∀ b ∈ stdout.take 40, b < 128)
    (hlen : 40 ≤ stdout.length) (j : Nat) (hj : j < 20)
    (hbad : pairOk ((stdout.take 40).getD (2 * j) 0)
      ((stdout.take 40).getD (2 * j + 1) 0) = false) :
    get_git_revision (some ⟨true, stdout⟩) = .err .Parse := by
  have hs40 : (stdout.take 40).length = 40 := by
    rw [List.length_take]; omega
  rw [get_true_eq, if_neg (by omega),
    if_pos (ascii_isValidUtf8 _ hascii),
    parse_loop_eq_pairs _ hascii 20 0 [] (by omega)]
  simp only [Nat.zero_mul, List.drop_zero]
  refine pairsLoop_err 20 _ [] j hj ?_
  rw [drop_take_two _ _ (by omega)]
  exact from_str_pair_none hbad

/-- Witness for C2 (amended) at 40 times the ASCII letter `g`. -/
theorem C2_nonhex_pair_parse_failure_witness :
    pairOk ((List.replicate 40 103).getD 0 0) ((List.replicate 40 103).getD 1 0)
      = false ∧
    get_git_revision (some ⟨true, List.replicate 40 103⟩) = .err .Parse :=
  ⟨by decide, C2_nonhex_pair_parse_failure (List.replicate 40 103) (by decide)
    (by decide) 0 (by decide) (by decide)⟩

/-- C5: for every command output with success exit status whose first 40
bytes are hex digits, resolution succeeds with the pairwise-decoded bytes,
whatever trailing content follows the 40th byte. -/
theorem C5_valid_hex_success (s rest : List Nat) (hlen : s.length = 40)
    (hhex : ∀ b ∈ s, isHexDigitByte b = true) :
    get_git_revision (some ⟨true, s ++ rest⟩) = .ok (decodePairsBytes s) := by
  have htake : (s ++ rest).take 40 = s := List.take_left' hlen
  have hascii : ∀ b ∈ (s ++ rest).take 40, b < 128 := by
    rw [htake]
    exact fun b hb => isHex_lt128 (hhex b hb)
  rw [get_true_eq, if_neg (by simp; omega), if_pos (ascii_isValidUtf8 _ hascii),
    htake] at *
  rw [parse_loop_eq_pairs s (fun b hb => isHex_lt128 (hhex b hb)) 20 0 []
    (by omega)]
  simp only [Nat.zero_mul, List.drop_zero]
  rw [pairsLoop_ok 20 s [] (by omega) hhex]
  rfl

/-- Witness for C5 at 40 times the hex digit `a` followed by a newline. -/
theorem C5_valid_hex_success_witness :
    (List.replicate 40 97 : List Nat).length = 40 ∧
    get_git_revision (some ⟨true, List.replicate 40 97 ++ [10]⟩)
      = .ok (decodePairsBytes (List.replicate 40 97)) :=
  ⟨by decide, C5_valid_hex_success (List.replicate 40 97) [10] (by decide)
    (by decide)⟩

/-- C3: truncating stdout to 40 bytes before validating the length is
observably identical to the source's validate-then-truncate order, and an
output of exactly 40 bytes with no trailing newline is accepted identically
to the same output with a trailing newline. -/
theorem C3_truncate_order :
    (∀ spawn : Option Output,
      get_git_revision_truncate_first spawn = get_git_revision spawn) ∧
    (∀ s : List Nat, s.length = 40 →
      get_git_revision (some ⟨true, s⟩) = get_git_revision (some ⟨true, s ++ [10]⟩)) := by
  constructor
  · intro spawn
    match spawn with
    | none => rfl
    | some ⟨false, stdout⟩ => rfl
    | some ⟨true, stdout⟩ =>
      rw [get_true_eq]
      simp only [get_git_revision_truncate_first, HASH_BYTES]
      norm_num
  · intro s hlen
    have h1 : s.take 40 = s := List.take_of_length_le (by omega)
    have h2 : (s ++ [10]).take 40 = s := List.take_left' hlen
    have e1 : ¬ s.length < 40 := by omega
    have e2 : ¬ (s ++ [10]).length < 40 := by simp; omega
    rw [get_true_eq, get_true_eq, h1, h2, if_neg e1, if_neg e2]

/-- Witness for C3: the order equivalence at a 41-byte output and the
trailing-newline equivalence at 40 zeros. -/
theorem C3_truncate_order_witness :
    get_git_revision_truncate_first (some ⟨true, List.replicate 41 48⟩)
      = get_git_revision (some ⟨true, List.replicate 41 48⟩) ∧
    get_git_revision (some ⟨true, List.replicate 40 48⟩)
      = get_git_revision (some ⟨true, List.replicate 40 48 ++ [10]⟩) :=
  ⟨C3_truncate_order.1 _, C3_truncate_order.2 (List.replicate 40 48) (by decide)⟩

/-- C9: `most_significant_u64` is total (a plain Lean function) and its value
depends only on the first eight bytes: two hashes agreeing on bytes 0-7 give
equal results. -/
theorem C9_msu64_depends_first8 (h1 h2 : List Nat)
    (he : h1.take 8 = h2.take 8) :
    most_significant_u64 h1 = most_significant_u64 h2 := by
  have key : ∀ i, i < 8 → h1.getD i 0 = h2.getD i 0 := fun i hi => by
    rw [← getD_take_eight h1 i hi, he, getD_take_eight h2 i hi]
  simp only [most_significant_u64, key 0 (by norm_num), key 1 (by norm_num),
    key 2 (by norm_num), key 3 (by norm_num), key 4 (by norm_num),
    key 5 (by norm_num), key 6 (by norm_num), key 7 (by norm_num)]

/-- Witness for C9 at two 20-byte lists sharing their first 8 bytes. -/
theorem C9_msu64_depends_first8_witness :
    (List.replicate 20 1 : List Nat).take 8
      = (List.replicate 8 1 ++ List.replicate 12 2 : List Nat).take 8 ∧
    most_significant_u64 (List.replicate 20 1)
      = most_significant_u64 (List.replicate 8 1 ++ List.replicate 12 2) :=
  ⟨by decide, C9_msu64_depends_first8 _ _ (by decide)⟩

/-- C10 counterexample: 36 ASCII zeros followed by the three bytes of `€` and
one ASCII letter form a valid-UTF-8 output of exactly 40 bytes on which the
parse loop panics — the slice `&stdout[36..38]` ends inside the multi-byte
character — so `get_git_revision` does not return `Ok` or an `Error` there. -/
theorem C10_panic_counterexample :
    isValidUtf8 (List.replicate 36 48 ++ [226, 130, 172, 97]) = true ∧
    (List.replicate 36 48 ++ [226, 130, 172, 97] : List Nat).length = 40 ∧
    get_git_revision (some ⟨true, List.replicate 36 48 ++ [226, 130, 172, 97]⟩)
      = .panicked := by
  refine ⟨by decide, by decide, by decide⟩

/-- C10 (amended): `get_git_revision` terminates with `Ok` or one of the three
errors — the parse loop never panics — provided the first 40 bytes of stdout
are ASCII; launch failures and non-success exits never panic either. -/
theorem C10_no_panic_on_ascii :
    (∀ (stdout : List Nat) (success : Bool),
      (∀ b ∈ stdout.take 40, b < 128) →
      get_git_revision (some ⟨success, stdout⟩) ≠ .panicked) ∧
    get_git_revision none ≠ .panicked := by
  refine ⟨fun stdout success hascii => ?_, by decide⟩
  cases success with
  | false => exact fun h => GitResult.noConfusion h
  | true =>
    rw [get_true_eq]
    split_ifs with h1 h2
    · exact fun h => GitResult.noConfusion h
    · have hs40 : (stdout.take 40).length = 40 := by
        rw [List.length_take]; omega
      rw [parse_loop_eq_pairs _ hascii 20 0 [] (by omega)]
      exact pairsLoop_ne_panicked 20 _ []
    · exact fun h => GitResult.noConfusion h

/-- Witness for C10 (amended) at 40 ASCII zeros. -/
theorem C10_no_panic_on_ascii_witness :
    (∀ b ∈ (List.replicate 40 48 : List Nat).take 40, b < 128) ∧
    get_git_revision (some ⟨true, List.replicate 40 48⟩) ≠ .panicked :=
  ⟨by decide, C10_no_panic_on_ascii.1 (List.replicate 40 48) true (by decide)⟩

/-- C4: `most_significant_u64` of a hash whose first eight bytes are
`0x01..0x08` is `0x0102030405060708`, and in general it is the first eight
bytes read as a big-endian unsigned 64-bit integer. -/
theorem C4_most_significant_u64_be :
    (∀ t : List Nat,
      most_significant_u64 ([1, 2, 3, 4, 5, 6, 7, 8] ++ t) = 0x0102030405060708) ∧
    (∀ h : List Nat, h.length = 20 → (∀ b ∈ h, b < 256) →
      most_significant_u64 h = beBytes (h.take 8)) := by
  constructor
  · intro t
    simp only [most_significant_u64]
    rw [List.getD_append _ _ _ 0 (by norm_num), List.getD_append _ _ _ 1 (by norm_num),
      List.getD_append _ _ _ 2 (by norm_num), List.getD_append _ _ _ 3 (by norm_num),
      List.getD_append _ _ _ 4 (by norm_num), List.getD_append _ _ _ 5 (by norm_num),
      List.getD_append _ _ _ 6 (by norm_num), List.getD_append _ _ _ 7 (by norm_num)]
    decide
  · intro h hlen hb
    rcases h with _ | ⟨b0, h⟩
    · simp only [List.length_nil] at hlen; omega
    rcases h with _ | ⟨b1, h⟩
    · simp only [List.length_cons, List.length_nil] at hlen; omega
    rcases h with _ | ⟨b2, h⟩
    · simp only [List.length_cons, List.length_nil] at hlen; omega
    rcases h with _ | ⟨b3, h⟩
    · simp only [List.length_cons, List.length_nil] at hlen; omega
    rcases h with _ | ⟨b4, h⟩
    · simp only [List.length_cons, List.length_nil] at hlen; omega
    rcases h with _ | ⟨b5, h⟩
    · simp only [List.length_cons, List.length_nil] at hlen; omega
    rcases h with _ | ⟨b6, h⟩
    · simp only [List.length_cons, List.length_nil] at hlen; omega
    rcases h with _ | ⟨b7, h⟩
    · simp only [List.length_cons, List.length_nil] at hlen; omega
    have e : most_significant_u64 (b0 :: b1 :: b2 :: b3 :: b4 :: b5 :: b6 :: b7 :: h)
        = b0 <<< 56 ||| b1 <<< 48 ||| b2 <<< 40 ||| b3 <<< 32 ||| b4 <<< 24
          ||| b5 <<< 16 ||| b6 <<< 8 ||| b7 := rfl
    rw [e, lor_bytes b0 b1 b2 b3 b4 b5 b6 b7 (hb b0 (by simp)) (hb b1 (by simp))
      (hb b2 (by simp)) (hb b3 (by simp)) (hb b4 (by simp)) (hb b5 (by simp))
      (hb b6 (by simp)) (hb b7 (by simp))]
    show _ = beBytes [b0, b1, b2, b3, b4, b5, b6, b7]
    simp only [beBytes, List.foldl]
    ring

/-- Witness for C4: the concrete example and the big-endian reading of a
20-byte hash of `0xff` bytes. -/
theorem C4_most_significant_u64_be_witness :
    most_significant_u64 ([1, 2, 3, 4, 5, 6, 7, 8] ++ List.replicate 12 0)
      = 0x0102030405060708 ∧
    most_significant_u64 (List.replicate 20 255)
      = beBytes ((List.replicate 20 255).take 8) :=
  ⟨C4_most_significant_u64_be.1 (List.replicate 12 0),
    C4_most_significant_u64_be.2 (List.replicate 20 255) (by decide) (by decide)⟩

theorem hexCharVal_hexDigitChar : ∀ d, d < 16 → hexCharVal (hexDigitChar d) = some d := by
  decide

theorem isLowerHexChar_hexDigitChar : ∀ d, d < 16 → isLowerHexChar (hexDigitChar d) = true := by
  decide

theorem roundtrip_aux (h : List Nat) (hb : ∀ b ∈ h, b < 256) :
    (toHexString h).length = 2 * h.length ∧
    (∀ c ∈ toHexString h, isLowerHexChar c = true) ∧
    decodeHexChars (toHexString h) = some h := by
  induction h with
  | nil => exact ⟨rfl, by simp [toHexString], rfl⟩
  | cons b t ih =>
    have hb256 : b < 256 := hb b (by simp)
    obtain ⟨ihl, ihm, ihd⟩ := ih fun x hx => hb x (by simp [hx])
    have hhi : b / 16 < 16 := by omega
    have hlo : b % 16 < 16 := by omega
    have htx : toHexString (b :: t)
        = hexDigitChar (b / 16) :: hexDigitChar (b % 16) :: toHexString t := by
      simp [toHexString, byteToHex]
    refine ⟨?_, ?_, ?_⟩
    · rw [htx]
      simp only [List.length_cons, ihl, List.length_cons]
      omega
    · rw [htx]
      intro c hc
      rcases (by simpa using hc :
          c = hexDigitChar (b / 16) ∨ c = hexDigitChar (b % 16) ∨ c ∈ toHexString t)
        with rfl | rfl | hmem
      · exact isLowerHexChar_hexDigitChar _ hhi
      · exact isLowerHexChar_hexDigitChar _ hlo
      · exact ihm c hmem
    · rw [htx]
      simp only [decodeHexChars, hexCharVal_hexDigitChar _ hhi,
        hexCharVal_hexDigitChar _ hlo, ihd]
      have : b / 16 * 16 + b % 16 = b := by omega
      rw [this]

/-- C1: formatting a 20-byte hash through the `Display` implementation gives
exactly 40 characters, each in `[0-9a-f]`, and pairwise radix-16 decoding of
that string gives back the original bytes. -/
theorem C1_toHexString_roundtrip (h : List Nat) (hlen : h.length = 20)
    (hb : ∀ b ∈ h, b < 256) :
    (toHexString h).length = 40 ∧
    (∀ c ∈ toHexString h, isLowerHexChar c = true) ∧
    decodeHexChars (toHexString h) = some h := by
  obtain ⟨h1, h2, h3⟩ := roundtrip_aux h hb
  exact ⟨by rw [h1, hlen], h2, h3⟩

/-- Witness for C1 at the hash of 20 `0xab` bytes. -/
theorem C1_toHexString_roundtrip_witness :
    (List.replicate 20 171 : List Nat).length = 20 ∧
    (toHexString (List.replicate 20 171)).length = 40 ∧
    decodeHexChars (toHexString (List.replicate 20 171))
      = some (List.replicate 20 171) :=
  ⟨by decide,
    (C1_toHexString_roundtrip (List.replicate 20 171) (by decide) (by decide)).1,
    (C1_toHexString_roundtrip (List.replicate 20 171) (by decide) (by decide)).2.2⟩

end GitRev
